import Mathlib

/-!
Verification of the Alice/Bob Diffie-Hellman handshake sketch (Arduino C++).

The development shallowly embeds the protocol core of the source file:
the `modExp` square-and-multiply routine, the `DiffieHellmanManager`
state machine (`initiate`, `processMessage`, `reset`), the
`CommunicationManager` XOR cipher (`encryptMessage`, `decryptMessage`)
and receive dispatch (`onReceive`), the `LevelManager` level switch, and
the `Alice`/`Bob` agent construction state.

Machine-arithmetic conventions (classic AVR Arduino):
`long` is a 32-bit signed two's-complement integer, `int` is 16-bit
signed, `char` is signed 8-bit.  Overflowing arithmetic is modelled as
two's-complement wrap-around.  C `%` and `/` truncate toward zero and
are modelled with `Int.tmod` / `Int.tdiv`; Lean's own `%` on `Int`
(`Int.emod`) is used only on the mathematical side.  Arduino `String`
values are modelled as `List Char`.
-/

/-- Two's-complement wrap-around of an integer to signed 32-bit range
(the value a 32-bit `long` holds after an overflowing computation). -/
def wrap32 (x : Int) : Int := (x + 2147483648) % 4294967296 - 2147483648

/-- Two's-complement wrap-around to signed 16-bit range (assignment of a
wider value to an AVR `int`). -/
def wrap16 (x : Int) : Int := (x + 32768) % 65536 - 32768

/-- Two's-complement interpretation of the low 8 bits of a byte value:
the value obtained by storing `n` into a signed `char`. -/
def i8ofNat (n : Nat) : Int :=
  if n % 256 < 128 then ((n % 256 : Nat) : Int) else ((n % 256 : Nat) : Int) - 256

/-- Loop body of the source's `modExp`, one constructor step per
iteration of the C `while (exponent > 0)` loop.  `result`, `base`,
`exponent`, `modulus` are the four C `long` variables; multiplication
results pass through `wrap32` because the C products can overflow the
32-bit `long`.  For any `long` exponent the C loop runs at most 31
times, so a fuel of 32 reproduces every real execution. -/
def modExpLoop : Nat → Int → Int → Int → Int → Int
  | 0, result, _, _, _ => result
  | fuel + 1, result, base, exponent, modulus =>
    if exponent > 0 then
      modExpLoop fuel
        (if Int.tmod exponent 2 = 1
          then Int.tmod (wrap32 (result * base)) modulus else result)
        (Int.tmod (wrap32 (base * base)) modulus) (Int.tdiv exponent 2) modulus
    else result

/-- The source's `modExp(long base, long exponent, long modulus)`:
`result = 1; base = base % modulus;` followed by the square-and-multiply
loop. -/
def modExp (base exponent modulus : Int) : Int :=
  modExpLoop 32 1 (Int.tmod base modulus) exponent modulus

/-- Fast modular exponentiation on `Nat`, used only as a proof tool to
evaluate large powers `b ^ e % m` on concrete inputs (the kernel cannot
feasibly unfold `b ^ e` for huge `e`).  Correct for `e < 2 ^ fuel`. -/
def powMod : Nat → Nat → Nat → Nat → Nat
  | 0, _, _, m => 1 % m
  | fuel + 1, b, e, m =>
    if e = 0 then 1 % m
    else
      let h := powMod fuel b (e / 2) m
      if e % 2 = 1 then h * h % m * b % m else h * h % m

/-- `g` is a primitive root modulo `p`: `g` is a unit mod `p` and no
proper divisor `d` of `p - 1` satisfies `g ^ d ≡ 1 (mod p)`, i.e. the
multiplicative order of `g` is exactly `p - 1`.  (Formalises the spec's
side condition "g a primitive root mod p" on DH parameters.) -/
def isPrimitiveRootMod (g p : Nat) : Prop :=
  2 ≤ p ∧ g % p ≠ 0 ∧ ∀ d, d < p - 1 → d ∣ (p - 1) → g ^ d % p ≠ 1

/-- Arduino `String::startsWith` on char lists (first argument is the
sought leading pattern). -/
def startsWith : List Char → List Char → Bool
  | [], _ => true
  | _ :: _, [] => false
  | c :: pat, d :: s => if c = d then startsWith pat s else false

/-- Arduino `String::indexOf(char c, from = 0)` position of the first
occurrence of `c`; `none` models the C return value `-1`. -/
def indexOfChar (c : Char) : List Char → Option Nat
  | [] => none
  | d :: s => if d = c then some 0 else (indexOfChar c s).map (fun i => i + 1)

/-- The C `isspace` characters skipped by `atol`. -/
def isSpaceChar (c : Char) : Bool :=
  c = ' ' || c = '\t' || c = '\n' || c = '\x0b' || c = '\x0c' || c = '\r'

/-- Leading decimal digits accumulated by `atol`, stopping at the first
non-digit. -/
def readDigits : Nat → List Char → Nat
  | acc, [] => acc
  | acc, c :: s => if c.isDigit then readDigits (10 * acc + (c.toNat - 48)) s else acc

/-- Arduino `String::toInt` (C `atol`): skip leading whitespace, optional
sign, then leading digits; `0` when there are no digits.  Overflow of
the C `long` is not modelled here; callers that store the value into a
`long` field wrap it with `wrap32` at the assignment. -/
def atoi (s : List Char) : Int :=
  match s.dropWhile isSpaceChar with
  | '-' :: s1 => -((readDigits 0 s1 : Nat) : Int)
  | '+' :: s1 => ((readDigits 0 s1 : Nat) : Int)
  | s1 => ((readDigits 0 s1 : Nat) : Int)

/-- Decimal digit character. -/
def digitChar (n : Nat) : Char := Char.ofNat (48 + n)

/-- Decimal digits of `n`, most significant first (fuel-structural so
that concrete values reduce in the kernel; `n + 1` fuel always
suffices). -/
def natDigits : Nat → Nat → List Char
  | 0, _ => []
  | fuel + 1, n =>
    if n < 10 then [digitChar n] else natDigits fuel (n / 10) ++ [digitChar (n % 10)]

/-- Arduino `String(long value)`: decimal representation with sign. -/
def intToChars (v : Int) : List Char :=
  if v < 0 then '-' :: natDigits ((-v).toNat + 1) (-v).toNat
  else natDigits (v.toNat + 1) v.toNat

/-- The four control-frame leaders the source matches with `startsWith`. -/
def pgTag : List Char := ['P', 'G', ':']

def ackTag : List Char := ['A', 'C', 'K']

def akeyTag : List Char := ['A', 'K', 'E', 'Y', ':']

def bkeyTag : List Char := ['B', 'K', 'E', 'Y', ':']

/-- The five states of `DiffieHellmanManager::State`. -/
inductive DHProtoState
  | IDLE
  | SENT_PG
  | RECEIVED_ACK
  | SENT_A_PREKEY
  | RECEIVED_B_PREKEY
  deriving DecidableEq

/-- The fields of `DiffieHellmanManager`.  `state` and
`sharedKeyAvailable` are set by the constructor; the six numeric members
are uninitialised C++ fields until first written, so runs quantify over
their starting values.  `sharedKey` and `privateKey` are C `int`
(16-bit); `p`, `g`, `publicKey`, `remotePublicKey` are `long`
(32-bit). -/
structure DHState where
  state : DHProtoState
  sharedKeyAvailable : Bool
  sharedKey : Int
  p : Int
  g : Int
  privateKey : Int
  publicKey : Int
  remotePublicKey : Int
  deriving DecidableEq

/-- A fresh `DiffieHellmanManager(displayManager)`: constructor sets
`state(IDLE), sharedKeyAvailable(false)`; the six numeric fields hold
arbitrary uninitialised values. -/
def dhFresh (sk p g pk pub rpub : Int) : DHState :=
  ⟨DHProtoState.IDLE, false, sk, p, g, pk, pub, rpub⟩

/-- `DiffieHellmanManager::reset()`: sets `state = IDLE` and
`sharedKeyAvailable = false`; all other members keep their stale
values. -/
def reset (st : DHState) : DHState :=
  { st with state := DHProtoState.IDLE, sharedKeyAvailable := false }

/-- `DiffieHellmanManager::isSharedKeyAvailable()`. -/
def isSharedKeyAvailable (st : DHState) : Bool := st.sharedKeyAvailable

/-- `DiffieHellmanManager::getSharedKey()`. -/
def getSharedKey (st : DHState) : Int := st.sharedKey

/-- The spec interface `sharedSecret() -> Optional<int>` (section 4.1):
present exactly when the engine reports the shared key available,
realised over the code members `sharedKeyAvailable` / `sharedKey`. -/
def sharedSecret (st : DHState) : Option Int :=
  if st.sharedKeyAvailable then some st.sharedKey else none

/-- `DiffieHellmanManager::initiate(bool isAlice)`: when Alice and IDLE,
store `p = 2089`, `g = 2`, print `"PG:" + String(p) + "," + String(g)`
and move to `SENT_PG`.  Returns the new state and the lines printed to
`Serial1`. -/
def initiate (st : DHState) (isAlice : Bool) : DHState × List (List Char) :=
  if isAlice = true ∧ st.state = DHProtoState.IDLE then
    ({ st with p := 2089, g := 2, state := DHProtoState.SENT_PG },
     [pgTag ++ intToChars 2089 ++ [','] ++ intToChars 2])
  else (st, [])

/-- `DiffieHellmanManager::processMessage(const char *message, bool
isAlice)`.  `rnd` is the value returned by the single `random(2, p - 2)`
call a branch may make (the only nondeterminism); it is a `long` stored
into the `int privateKey`, hence `wrap16`.  The `PG:` field split
mirrors `substring(0, commaIndex)` / `substring(commaIndex + 1)`
including the Arduino behaviour when `indexOf` returns `-1` (the
unsigned-cast right bound clamps to the full string, and `-1 + 1 = 0`
restarts at the front).  Returns the new state and the lines printed to
`Serial1`. -/
def processMessage (st : DHState) (message : List Char) (isAlice : Bool) (rnd : Int) :
    DHState × List (List Char) :=
  if startsWith pgTag message = true then
    if isAlice = false ∧ st.state = DHProtoState.IDLE then
      ({ st with
          p := wrap32 (atoi (match indexOfChar ',' (message.drop 3) with
            | none => message.drop 3
            | some i => (message.drop 3).take i)),
          g := wrap32 (atoi (match indexOfChar ',' (message.drop 3) with
            | none => message.drop 3
            | some i => (message.drop 3).drop (i + 1))),
          state := DHProtoState.RECEIVED_ACK },
       [ackTag])
    else (st, [])
  else if startsWith ackTag message = true then
    if isAlice = true ∧ st.state = DHProtoState.SENT_PG then
      ({ st with
          privateKey := wrap16 rnd,
          publicKey := modExp st.g (wrap16 rnd) st.p,
          state := DHProtoState.RECEIVED_ACK },
       [akeyTag ++ intToChars (modExp st.g (wrap16 rnd) st.p)])
    else (st, [])
  else if startsWith akeyTag message = true then
    if isAlice = false ∧ st.state = DHProtoState.RECEIVED_ACK then
      ({ st with
          remotePublicKey := wrap32 (atoi (message.drop 5)),
          privateKey := wrap16 rnd,
          publicKey := modExp st.g (wrap16 rnd) st.p,
          sharedKey := wrap16 (modExp (wrap32 (atoi (message.drop 5))) (wrap16 rnd) st.p),
          sharedKeyAvailable := true,
          state := DHProtoState.RECEIVED_B_PREKEY },
       [bkeyTag ++ intToChars (modExp st.g (wrap16 rnd) st.p)])
    else (st, [])
  else if startsWith bkeyTag message = true then
    if isAlice = true ∧ st.state = DHProtoState.RECEIVED_ACK then
      ({ st with
          remotePublicKey := wrap32 (atoi (message.drop 5)),
          sharedKey := wrap16 (modExp (wrap32 (atoi (message.drop 5))) st.privateKey st.p),
          sharedKeyAvailable := true,
          state := DHProtoState.RECEIVED_B_PREKEY },
       [])
    else (st, [])
  else (st, [])

/-- `(char)(x ^ key)` in C: xor of the two low bytes, read back as a
signed 8-bit char.  Integer promotion preserves the low byte, so only
`x % 256` and `key % 256` matter. -/
def charXor (c k : Int) : Int := i8ofNat ((c % 256).toNat ^^^ (k % 256).toNat)

/-- Token loop of `CommunicationManager::encryptMessage`: every
plaintext char value becomes the decimal of `(char)(c ^ key)` followed
by one space (`String((int)encryptedChar) + " "`). -/
def encTokens (key : Int) : List Int → List Char
  | [] => []
  | c :: rest => intToChars (charXor c key) ++ ' ' :: encTokens key rest

/-- `CommunicationManager::encryptMessage(const char *plainText)`:
`int key = dhManager.getSharedKey() % 256` (C truncated `%`), then the
token loop over the plaintext char values. -/
def encryptMessage (sharedKey : Int) (plain : List Int) : List Char :=
  encTokens (Int.tmod sharedKey 256) plain

/-- Loop of `CommunicationManager::decryptMessage`: while
`indexOf(' ', start)` succeeds, take the substring before that space,
`(char)`-cast its `toInt`, xor with the key, append the char.  A final
token not followed by a space is never consumed.  One fuel unit per
iteration; every iteration drops at least one char, so `length + 1`
fuel reproduces the loop exactly. -/
def decryptLoop (key : Int) : Nat → List Char → List Int
  | 0, _ => []
  | fuel + 1, s =>
    match indexOfChar ' ' s with
    | none => []
    | some i => charXor (atoi (s.take i)) key :: decryptLoop key fuel (s.drop (i + 1))

/-- `CommunicationManager::decryptMessage(const char *cipherText)`:
`int key = dhManager.getSharedKey() % 256`, then the token loop; the
result is the sequence of char values appended to `decryptedText`. -/
def decryptMessage (sharedKey : Int) (cipherText : List Char) : List Int :=
  decryptLoop (Int.tmod sharedKey 256) (cipherText.length + 1) cipherText

/-- Char values appended one by one to an Arduino String, read back as
the stored bytes. -/
def charsOfBytes (bs : List Int) : List Char :=
  bs.map (fun v => Char.ofNat (v % 256).toNat)

/-- The display leader `"Recv: "`. -/
def recvTag : List Char := ['R', 'e', 'c', 'v', ':', ' ']

/-- The literal `"Shared key not available"` shown when a payload
arrives before handshake completion. -/
def keyUnavailableMsg : List Char :=
  ['S', 'h', 'a', 'r', 'e', 'd', ' ', 'k', 'e', 'y', ' ', 'n', 'o', 't', ' ',
   'a', 'v', 'a', 'i', 'l', 'a', 'b', 'l', 'e']

/-- `enum SecurityLevel { LEVEL0, LEVEL1, LEVEL2 }`. -/
inductive SecurityLevel
  | LEVEL0
  | LEVEL1
  | LEVEL2
  deriving DecidableEq

/-- `CommunicationManager::onReceive` acting on one received line.
LEVEL0 displays the raw line; LEVEL1 forwards the four control frames to
`processMessage`, otherwise decrypts when the shared key is available
and displays `"Shared key not available"` when it is not; LEVEL2 has no
branch and consumes the line silently.  Returns the new DH state, the
lines sent on `Serial1`, and the lines shown on the display. -/
def onReceive (dh : DHState) (line : List Char) (isAlice : Bool)
    (level : SecurityLevel) (rnd : Int) :
    DHState × List (List Char) × List (List Char) :=
  match level with
  | SecurityLevel.LEVEL0 => (dh, [], [recvTag ++ line])
  | SecurityLevel.LEVEL1 =>
    if startsWith pgTag line = true ∨ startsWith ackTag line = true
        ∨ startsWith akeyTag line = true ∨ startsWith bkeyTag line = true then
      ((processMessage dh line isAlice rnd).1, (processMessage dh line isAlice rnd).2, [])
    else if dh.sharedKeyAvailable = true then
      (dh, [], [recvTag ++ charsOfBytes (decryptMessage dh.sharedKey line)])
    else
      (dh, [], [keyUnavailableMsg])
  | SecurityLevel.LEVEL2 => (dh, [], [])

/-- Numeric value of a `SecurityLevel` enumerator. -/
def levelIndex : SecurityLevel → Nat
  | SecurityLevel.LEVEL0 => 0
  | SecurityLevel.LEVEL1 => 1
  | SecurityLevel.LEVEL2 => 2

/-- `static_cast<SecurityLevel>(n)` for the values the code produces. -/
def levelOfIndex (n : Nat) : SecurityLevel :=
  if n = 0 then SecurityLevel.LEVEL0
  else if n = 1 then SecurityLevel.LEVEL1
  else SecurityLevel.LEVEL2

/-- `LevelManager::nextLevel()`:
`currentLevel = static_cast<SecurityLevel>((currentLevel + 1) % 2)`. -/
def nextLevel (l : SecurityLevel) : SecurityLevel :=
  levelOfIndex ((levelIndex l + 1) % 2)

/-- The member state of class `Alice` (in constructor order):
`sequenceNumber(1), lastSendTime(0), dhInitiated(false)` and the
in-class initialiser `testMessagesSent = false`. -/
structure AliceState where
  sequenceNumber : Int
  lastSendTime : Nat
  dhInitiated : Bool
  testMessagesSent : Bool
  deriving DecidableEq

/-- `new Alice(commManager, dhManager)`. -/
def aliceFresh : AliceState := ⟨1, 0, false, false⟩

/-- The member state of class `Bob`: `sequenceNumber(1),
dhInitiated(false)` and in-class initialisers `testMessagesSent = false`,
`lastSendTime = 0`. -/
structure BobState where
  sequenceNumber : Int
  dhInitiated : Bool
  testMessagesSent : Bool
  lastSendTime : Nat
  deriving DecidableEq

/-- `new Bob(commManager, dhManager)`. -/
def bobFresh : BobState := ⟨1, false, false, 0⟩

/-- The mutable state touched by the `MODE_SELECT` branch of `loop()`,
viewed across the two peer devices as in the spec (each physical device
holds one agent; the branch rebuilds whichever exists). -/
structure SystemState where
  level : SecurityLevel
  dh : DHState
  alice : AliceState
  bob : BobState

/-- The `MODE_SELECT` toggle branch of `loop()`:
`levelManager.nextLevel()`, `dhManager.reset()`, and `delete`/`new` of
the agents, which reconstructs their member state. -/
def levelToggle (s : SystemState) : SystemState :=
  { level := nextLevel s.level, dh := reset s.dh, alice := aliceFresh, bob := bobFresh }

/-- The four-frame handshake over two engines: Alice `initiate`s; each
frame actually sent is delivered to the peer in order (PG to Bob, ACK to
Alice, AKEY to Bob, BKEY to Alice).  `aRnd` / `bRnd` are the values the
two `random(2, p - 2)` calls return.  Result: (final Alice engine,
final Bob engine). -/
def handshakeRun (a0 b0 : DHState) (aRnd bRnd : Int) : DHState × DHState :=
  let s1 := initiate a0 true
  let s2 := processMessage b0 (List.headD s1.2 []) false bRnd
  let s3 := processMessage s1.1 (List.headD s2.2 []) true aRnd
  let s4 := processMessage s2.1 (List.headD s3.2 []) false bRnd
  let s5 := processMessage s3.1 (List.headD s4.2 []) true aRnd
  (s5.1, s4.1)


theorem wrap32_eq_self {x : Int} (h1 : -2147483648 ≤ x) (h2 : x < 2147483648) :
    wrap32 x = x := by
  unfold wrap32
  omega

theorem powMod_spec : ∀ (fuel e : Nat), e < 2 ^ fuel → ∀ b m, powMod fuel b e m = b ^ e % m := by
  intro fuel
  induction fuel with
  | zero =>
    intro e he b m
    rw [pow_zero] at he
    have h0 : e = 0 := by omega
    subst h0
    simp [powMod]
  | succ k ih =>
    intro e he b m
    by_cases he0 : e = 0
    · simp [powMod, he0]
    · have hpow : (2 : Nat) ^ (k + 1) = 2 * 2 ^ k := by ring
      rw [hpow] at he
      have hdiv : e / 2 < 2 ^ k := by omega
      have hrec := ih (e / 2) hdiv b m
      by_cases hodd : e % 2 = 1
      · have hsplit : 2 * (e / 2) + 1 = e := by omega
        calc powMod (k + 1) b e m
            = (b ^ (e / 2) % m) * (b ^ (e / 2) % m) % m * b % m := by
              simp [powMod, he0, hodd, hrec]
          _ = b ^ (e / 2) * b ^ (e / 2) % m * b % m := by rw [← Nat.mul_mod]
          _ = b ^ (e / 2) * b ^ (e / 2) * b % m := by rw [Nat.mod_mul_mod]
          _ = b ^ (2 * (e / 2) + 1) % m := by rw [pow_add, two_mul, pow_add, pow_one]
          _ = b ^ e % m := by rw [hsplit]
      · have hsplit : 2 * (e / 2) = e := by omega
        calc powMod (k + 1) b e m
            = (b ^ (e / 2) % m) * (b ^ (e / 2) % m) % m := by
              simp [powMod, he0, hodd, hrec]
          _ = b ^ (e / 2) * b ^ (e / 2) % m := by rw [← Nat.mul_mod]
          _ = b ^ (2 * (e / 2)) % m := by rw [two_mul, pow_add]
          _ = b ^ e % m := by rw [hsplit]

theorem isPrimitiveRootMod_of_checks (g p : Nat) (hp : 2 ≤ p) (hg : g % p ≠ 0)
    (hmax : ∀ q, Nat.Prime q → q ∣ (p - 1) → g ^ ((p - 1) / q) % p ≠ 1) :
    isPrimitiveRootMod g p := by
  refine ⟨hp, hg, ?_⟩
  intro d hlt hdvd hone
  obtain ⟨m, hm⟩ := hdvd
  have hm1 : m ≠ 1 := by
    intro h
    rw [h, Nat.mul_one] at hm
    omega
  have hm0 : m ≠ 0 := by
    intro h
    rw [h, Nat.mul_zero] at hm
    omega
  have hq : Nat.Prime m.minFac := Nat.minFac_prime hm1
  have hqd : m.minFac ∣ (p - 1) := by
    rw [hm]
    exact Dvd.dvd.mul_left (Nat.minFac_dvd m) d
  have hquot : (p - 1) / m.minFac = d * (m / m.minFac) := by
    rw [hm, Nat.mul_div_assoc d (Nat.minFac_dvd m)]
  have hcontra : g ^ ((p - 1) / m.minFac) % p = 1 := by
    rw [hquot, pow_mul, Nat.pow_mod, hone, one_pow]
    exact Nat.mod_eq_of_lt (by omega)
  exact hmax m.minFac hq hqd hcontra

theorem intPowEmod (a : Int) (n : Nat) (m : Int) : a ^ n % m = (a % m) ^ n % m := by
  induction n with
  | zero => rfl
  | succ k ih =>
    rw [pow_succ, pow_succ, Int.mul_emod, ih]
    conv_rhs => rw [Int.mul_emod, Int.emod_emod_of_dvd a (dvd_refl m)]

theorem mul_pow_emod (r x : Int) (n : Nat) (m : Int) :
    (r * (x % m) ^ n) % m = (r * x ^ n) % m := by
  rw [Int.mul_emod, ← intPowEmod, ← Int.mul_emod]

theorem emod_mul_emod (x y m : Int) : (x % m * y) % m = (x * y) % m := by
  rw [Int.mul_emod, Int.emod_emod_of_dvd _ (dvd_refl m), ← Int.mul_emod]

theorem prod_lt_two_pow_31 {x y m : Int} (hx : 0 ≤ x) (hxm : x < m) (hy : 0 ≤ y)
    (hym : y < m) (hm : m ≤ 46341) : x * y < 2147483648 := by
  have h1 : x ≤ 46340 := by omega
  have h2 : y ≤ 46340 := by omega
  have h3 : x * y ≤ 46340 * 46340 := mul_le_mul h1 h2 hy (by norm_num)
  norm_num at h3
  omega

/-- Square-and-multiply loop invariant: for a modulus of at most 46341 no
intermediate product overflows the 32-bit `long`, and the loop computes
`r * b ^ e mod m`. -/
theorem modExpLoop_spec : ∀ (fuel : Nat) (r b : Int) (e : Nat) (m : Int),
    0 ≤ r → r < m → 0 ≤ b → b < m → e < 2 ^ fuel → m ≤ 46341 →
    modExpLoop fuel r b (e : Int) m = (r * b ^ e) % m := by
  intro fuel
  induction fuel with
  | zero =>
    intro r b e m hr hrm hb hbm he hm
    rw [pow_zero] at he
    have h0 : e = 0 := by omega
    subst h0
    simp [modExpLoop]
    rw [Int.emod_eq_of_lt hr hrm]
  | succ k ih =>
    intro r b e m hr hrm hb hbm he hm
    have hm0 : (0 : Int) < m := by omega
    have hmne : m ≠ 0 := by omega
    by_cases he0 : e = 0
    · subst he0
      simp [modExpLoop]
      rw [Int.emod_eq_of_lt hr hrm]
    · have hpos : ((e : Nat) : Int) > 0 := by
        have : 0 < e := Nat.pos_of_ne_zero he0
        exact_mod_cast this
      have hcastmod : Int.tmod ((e : Nat) : Int) 2 = ((e % 2 : Nat) : Int) := by
        rw [Int.tmod_eq_emod (Int.natCast_nonneg e) (by norm_num)]
        norm_cast
      have hcastdiv : Int.tdiv ((e : Nat) : Int) 2 = ((e / 2 : Nat) : Int) := by
        rw [Int.tdiv_eq_ediv (Int.natCast_nonneg e) (by norm_num)]
        norm_cast
      have hbb : wrap32 (b * b) = b * b :=
        wrap32_eq_self (by have h := mul_nonneg hb hb; omega)
          (prod_lt_two_pow_31 hb hbm hb hbm hm)
      have hbbmod : Int.tmod (wrap32 (b * b)) m = b * b % m := by
        rw [hbb, Int.tmod_eq_emod (by positivity) (by omega)]
      have hb1 : 0 ≤ b * b % m := Int.emod_nonneg _ hmne
      have hb1m : b * b % m < m := Int.emod_lt_of_pos _ hm0
      have hpow2 : (2 : Nat) ^ (k + 1) = 2 * 2 ^ k := by ring
      rw [hpow2] at he
      have hdiv : e / 2 < 2 ^ k := by omega
      by_cases hodd : e % 2 = 1
      · have hrb : wrap32 (r * b) = r * b :=
          wrap32_eq_self (by have h := mul_nonneg hr hb; omega)
            (prod_lt_two_pow_31 hr hrm hb hbm hm)
        have hrbmod : Int.tmod (wrap32 (r * b)) m = r * b % m := by
          rw [hrb, Int.tmod_eq_emod (by positivity) (by omega)]
        have hr1 : 0 ≤ r * b % m := Int.emod_nonneg _ hmne
        have hr1m : r * b % m < m := Int.emod_lt_of_pos _ hm0
        have hstep := ih (r * b % m) (b * b % m) (e / 2) m hr1 hr1m hb1 hb1m hdiv hm
        calc modExpLoop (k + 1) r b ((e : Nat) : Int) m
            = modExpLoop k (r * b % m) (b * b % m) ((e / 2 : Nat) : Int) m := by
              simp only [modExpLoop, if_pos hpos, hcastmod, hcastdiv, hbbmod, hrbmod]
              rw [if_pos]
              exact_mod_cast congrArg (fun n => ((n : Nat) : Int)) hodd
          _ = ((r * b % m) * (b * b % m) ^ (e / 2)) % m := hstep
          _ = ((r * b % m) * (b * b) ^ (e / 2)) % m := mul_pow_emod _ _ _ _
          _ = ((r * b) * (b * b) ^ (e / 2)) % m := emod_mul_emod _ _ _
          _ = (r * b ^ e) % m := by
              conv_rhs => rw [show e = 2 * (e / 2) + 1 by omega, pow_add, pow_mul, pow_one]
              ring_nf
      · have heven : e % 2 = 0 := by omega
        have hstep := ih r (b * b % m) (e / 2) m hr hrm hb1 hb1m hdiv hm
        calc modExpLoop (k + 1) r b ((e : Nat) : Int) m
            = modExpLoop k r (b * b % m) ((e / 2 : Nat) : Int) m := by
              simp only [modExpLoop, if_pos hpos, hcastmod, hcastdiv, hbbmod]
              rw [if_neg]
              rw [heven]
              norm_num
          _ = (r * (b * b % m) ^ (e / 2)) % m := hstep
          _ = (r * (b * b) ^ (e / 2)) % m := mul_pow_emod _ _ _ _
          _ = (r * b ^ e) % m := by
              conv_rhs => rw [show e = 2 * (e / 2) by omega, pow_mul]
              ring_nf

/-- `modExp` computes `base ^ exponent mod modulus` whenever `base` is
non-negative, the exponent fits the loop (any `long` exponent does), and
the modulus is between 2 and 46341 so that no product overflows. -/
theorem modExp_spec (b : Int) (e : Nat) (m : Int) (hb : 0 ≤ b) (he : e < 4294967296)
    (hm : 2 ≤ m) (hm2 : m ≤ 46341) : modExp b ((e : Nat) : Int) m = b ^ e % m := by
  unfold modExp
  have hmne : m ≠ 0 := by omega
  have hbmod : Int.tmod b m = b % m := Int.tmod_eq_emod hb (by omega)
  rw [hbmod]
  rw [modExpLoop_spec 32 1 (b % m) e m (by norm_num) (by omega)
    (Int.emod_nonneg b hmne) (Int.emod_lt_of_pos b (by omega))
    (by have h32 : (2 : Nat) ^ 32 = 4294967296 := by norm_num
        omega) hm2]
  rw [one_mul, ← intPowEmod]

theorem primRoot_3_65537 : isPrimitiveRootMod 3 65537 := by
  apply isPrimitiveRootMod_of_checks 3 65537 (by norm_num) (by norm_num)
  intro q hq hdvd
  have h16 : (65537 : Nat) - 1 = 2 ^ 16 := by norm_num
  rw [h16] at hdvd
  have hq2 : q = 2 :=
    (Nat.prime_dvd_prime_iff_eq hq Nat.prime_two).mp (hq.dvd_of_dvd_pow hdvd)
  subst hq2
  rw [h16, ← powMod_spec 32 (2 ^ 16 / 2) (by norm_num) 3 65537]
  decide

theorem primRoot_7_2089 : isPrimitiveRootMod 7 2089 := by
  apply isPrimitiveRootMod_of_checks 7 2089 (by norm_num) (by norm_num)
  intro q hq hdvd
  have hfac : (2089 : Nat) - 1 = 2 ^ 3 * (3 ^ 2 * 29) := by norm_num
  rw [hfac] at hdvd
  rcases (Nat.Prime.dvd_mul hq).mp hdvd with h | h
  · have hq2 : q = 2 :=
      (Nat.prime_dvd_prime_iff_eq hq Nat.prime_two).mp (hq.dvd_of_dvd_pow h)
    subst hq2
    rw [hfac, ← powMod_spec 32 (2 ^ 3 * (3 ^ 2 * 29) / 2) (by norm_num) 7 2089]
    decide
  · rcases (Nat.Prime.dvd_mul hq).mp h with h2 | h2
    · have hq3 : q = 3 :=
        (Nat.prime_dvd_prime_iff_eq hq Nat.prime_three).mp (hq.dvd_of_dvd_pow h2)
      subst hq3
      rw [hfac, ← powMod_spec 32 (2 ^ 3 * (3 ^ 2 * 29) / 3) (by norm_num) 7 2089]
      decide
    · have hq29 : q = 29 :=
        (Nat.prime_dvd_prime_iff_eq hq (by norm_num)).mp h2
      subst hq29
      rw [hfac, ← powMod_spec 32 (2 ^ 3 * (3 ^ 2 * 29) / 29) (by norm_num) 7 2089]
      decide

/-- C3, counterexample: the claimed symmetry over the code's fixed-width
`long` arithmetic fails for the valid DH parameters p = 65537 (prime),
g = 3 (a primitive root mod 65537) with private scalars a = 2, b = 10 in
[2, p - 2]: the two nested `modExp` results differ (one side even comes
out negative), because intermediate squarings overflow the 32-bit
`long`. -/
theorem c3_counterexample :
    Nat.Prime 65537 ∧ isPrimitiveRootMod 3 65537 ∧
    2 ≤ 2 ∧ 2 ≤ 65537 - 2 ∧ 2 ≤ 10 ∧ 10 ≤ 65537 - 2 ∧
    modExp (modExp 3 2 65537) 10 65537 ≠ modExp (modExp 3 10 65537) 2 65537 :=
  ⟨by norm_num, primRoot_3_65537, by norm_num, by norm_num, by norm_num, by norm_num,
   by decide⟩

/-- C3 (amended): for all valid DH parameters (p, g) with p prime, g a
primitive root mod p, and additionally p ≤ 46341 — so that every
intermediate product of the square-and-multiply loop fits the 32-bit
`long` — and all private scalars a, b in [2, p - 2]:
`modExp(modExp(g,a,p), b, p) = modExp(modExp(g,b,p), a, p)`. -/
theorem c3_amended (p g a b : Nat) (hp : Nat.Prime p) (hg : isPrimitiveRootMod g p)
    (hpb : p ≤ 46341) (ha1 : 2 ≤ a) (ha2 : a ≤ p - 2) (hb1 : 2 ≤ b) (hb2 : b ≤ p - 2) :
    modExp (modExp (g : Int) (a : Int) (p : Int)) (b : Int) (p : Int)
      = modExp (modExp (g : Int) (b : Int) (p : Int)) (a : Int) (p : Int) := by
  have hp2 : (2 : Int) ≤ (p : Int) := by exact_mod_cast hp.two_le
  have hp46 : ((p : Nat) : Int) ≤ 46341 := by exact_mod_cast hpb
  have hpne : ((p : Nat) : Int) ≠ 0 := by positivity
  have hppos : (0 : Int) < (p : Int) := by positivity
  have hae : a < 4294967296 := by omega
  have hbe : b < 4294967296 := by omega
  have hga : modExp (g : Int) (a : Int) (p : Int) = (g : Int) ^ a % (p : Int) :=
    modExp_spec (g : Int) a (p : Int) (by positivity) hae hp2 hp46
  have hgb : modExp (g : Int) (b : Int) (p : Int) = (g : Int) ^ b % (p : Int) :=
    modExp_spec (g : Int) b (p : Int) (by positivity) hbe hp2 hp46
  rw [hga, hgb]
  rw [modExp_spec ((g : Int) ^ a % (p : Int)) b (p : Int)
    (Int.emod_nonneg _ hpne) hbe hp2 hp46]
  rw [modExp_spec ((g : Int) ^ b % (p : Int)) a (p : Int)
    (Int.emod_nonneg _ hpne) hae hp2 hp46]
  rw [← intPowEmod, ← intPowEmod, ← pow_mul, ← pow_mul, Nat.mul_comm]

/-- C3 witness for the amended theorem: p = 2089 (the prime the code
ships), g = 7 (an actual primitive root mod 2089), a = 7, b = 11. -/
theorem c3_witness :
    modExp (modExp 7 7 2089) 11 2089 = modExp (modExp 7 11 2089) 7 2089 :=
  c3_amended 2089 7 7 11 (by norm_num) primRoot_7_2089 (by norm_num) (by norm_num)
    (by norm_num) (by norm_num) (by norm_num)

/-- C4, counterexample: `modExp(-1, 1, 5)` returns `-1`, which is
negative (not in [0, 4]) and differs from the mathematical
`(-1)^1 mod 5 = 4`, because the C `%` truncates toward zero; so the
claim fails for negative bases. -/
theorem c4_counterexample :
    modExp (-1) 1 5 = -1 ∧ ((-1 : Int) ^ (1 : Nat)) % 5 = 4 ∧ modExp (-1) 1 5 < 0 :=
  ⟨by decide, by decide, by decide⟩

/-- C4 (amended): `modExp` implements square-and-multiply over the
32-bit `long`; for every non-negative base, every exponent that fits the
loop (any `long` exponent does), and every modulus with
2 ≤ modulus ≤ 46341 — so that no intermediate product overflows — it
returns `base ^ exponent mod modulus`, a value in [0, modulus - 1]; and
`modExp(base, 0, modulus)` returns 1 for every base and modulus. -/
theorem c4_amended (base : Int) (e : Nat) (m : Int) (hb : 0 ≤ base)
    (he : e < 4294967296) (hm : 2 ≤ m) (hm2 : m ≤ 46341) :
    (modExp base (e : Int) m = base ^ e % m ∧
      0 ≤ modExp base (e : Int) m ∧ modExp base (e : Int) m < m) ∧
    ∀ b0 m0 : Int, modExp b0 0 m0 = 1 := by
  have hs := modExp_spec base e m hb he hm hm2
  refine ⟨⟨hs, ?_, ?_⟩, ?_⟩
  · rw [hs]
    exact Int.emod_nonneg _ (by omega)
  · rw [hs]
    exact Int.emod_lt_of_pos _ (by omega)
  · intro b0 m0
    rfl

/-- C4 witness for the amended theorem at base 2, exponent 7,
modulus 2089. -/
theorem c4_witness :
    modExp 2 7 2089 = (2 : Int) ^ (7 : Nat) % 2089 ∧
      0 ≤ modExp 2 7 2089 ∧ modExp 2 7 2089 < 2089 :=
  (c4_amended 2 7 2089 (by norm_num) (by norm_num) (by norm_num) (by norm_num)).1

/-- C1: with p = 2089, g = 2, Initiator private scalar 7, Responder
private scalar 11, delivering the frames PG, ACK, AKEY, BKEY in order
(each being the frame the peer actually sent) makes both engines report
the shared key available, with the same value on both sides, equal to
`modExp(modExp(2,7,2089), 11, 2089)`; the engines start as fresh
constructions whose uninitialised numeric fields may hold anything. -/
theorem c1_handshake (ask ap ag apk apub arp bsk bp bg bpk bpub brp : Int) :
    isSharedKeyAvailable
        (handshakeRun (dhFresh ask ap ag apk apub arp) (dhFresh bsk bp bg bpk bpub brp) 7 11).1
      = true ∧
    isSharedKeyAvailable
        (handshakeRun (dhFresh ask ap ag apk apub arp) (dhFresh bsk bp bg bpk bpub brp) 7 11).2
      = true ∧
    getSharedKey
        (handshakeRun (dhFresh ask ap ag apk apub arp) (dhFresh bsk bp bg bpk bpub brp) 7 11).1
      = getSharedKey
        (handshakeRun (dhFresh ask ap ag apk apub arp) (dhFresh bsk bp bg bpk bpub brp) 7 11).2 ∧
    getSharedKey
        (handshakeRun (dhFresh ask ap ag apk apub arp) (dhFresh bsk bp bg bpk bpub brp) 7 11).1
      = modExp (modExp 2 7 2089) 11 2089 := by
  have e1 : wrap16 7 = 7 := rfl
  have e2 : wrap16 11 = 11 := rfl
  have e3 : modExp 2 7 2089 = 128 := rfl
  have e4 : modExp 2 11 2089 = 2048 := rfl
  have e5 : wrap32 (atoi (List.drop 5 ['A', 'K', 'E', 'Y', ':', '1', '2', '8'])) = 128 := rfl
  have e6 : wrap32 (atoi (List.drop 5 ['B', 'K', 'E', 'Y', ':', '2', '0', '4', '8'])) = 2048 := rfl
  have e7 : modExp 128 11 2089 = 2038 := rfl
  have e8 : modExp 2048 7 2089 = 2038 := rfl
  have e9 : wrap16 2038 = 2038 := rfl
  have e10 : akeyTag ++ intToChars 128 = ['A', 'K', 'E', 'Y', ':', '1', '2', '8'] := rfl
  have e11 : bkeyTag ++ intToChars 2048 = ['B', 'K', 'E', 'Y', ':', '2', '0', '4', '8'] := rfl
  have h1 : initiate (dhFresh ask ap ag apk apub arp) true
      = (⟨DHProtoState.SENT_PG, false, ask, 2089, 2, apk, apub, arp⟩,
         [['P', 'G', ':', '2', '0', '8', '9', ',', '2']]) := rfl
  have h2 : processMessage (dhFresh bsk bp bg bpk bpub brp)
        ['P', 'G', ':', '2', '0', '8', '9', ',', '2'] false 11
      = (⟨DHProtoState.RECEIVED_ACK, false, bsk, 2089, 2, bpk, bpub, brp⟩,
         [['A', 'C', 'K']]) := rfl
  have h3 : processMessage
        (⟨DHProtoState.SENT_PG, false, ask, 2089, 2, apk, apub, arp⟩ : DHState)
        ['A', 'C', 'K'] true 7
      = (⟨DHProtoState.RECEIVED_ACK, false, ask, 2089, 2, wrap16 7,
          modExp 2 (wrap16 7) 2089, arp⟩,
         [akeyTag ++ intToChars (modExp 2 (wrap16 7) 2089)]) := rfl
  rw [e1, e3, e10] at h3
  have h4 : processMessage
        (⟨DHProtoState.RECEIVED_ACK, false, bsk, 2089, 2, bpk, bpub, brp⟩ : DHState)
        ['A', 'K', 'E', 'Y', ':', '1', '2', '8'] false 11
      = (⟨DHProtoState.RECEIVED_B_PREKEY, true,
          wrap16 (modExp (wrap32 (atoi (List.drop 5 ['A', 'K', 'E', 'Y', ':', '1', '2', '8'])))
            (wrap16 11) 2089),
          2089, 2, wrap16 11, modExp 2 (wrap16 11) 2089,
          wrap32 (atoi (List.drop 5 ['A', 'K', 'E', 'Y', ':', '1', '2', '8']))⟩,
         [bkeyTag ++ intToChars (modExp 2 (wrap16 11) 2089)]) := rfl
  rw [e2, e5, e4, e7, e9, e11] at h4
  have h5 : processMessage
        (⟨DHProtoState.RECEIVED_ACK, false, ask, 2089, 2, 7, 128, arp⟩ : DHState)
        ['B', 'K', 'E', 'Y', ':', '2', '0', '4', '8'] true 7
      = (⟨DHProtoState.RECEIVED_B_PREKEY, true,
          wrap16 (modExp (wrap32 (atoi (List.drop 5 ['B', 'K', 'E', 'Y', ':', '2', '0', '4', '8'])))
            7 2089),
          2089, 2, 7, 128,
          wrap32 (atoi (List.drop 5 ['B', 'K', 'E', 'Y', ':', '2', '0', '4', '8']))⟩,
         []) := rfl
  rw [e6, e8, e9] at h5
  have hrun : handshakeRun (dhFresh ask ap ag apk apub arp) (dhFresh bsk bp bg bpk bpub brp) 7 11
      = (⟨DHProtoState.RECEIVED_B_PREKEY, true, 2038, 2089, 2, 7, 128, 2048⟩,
         ⟨DHProtoState.RECEIVED_B_PREKEY, true, 2038, 2089, 2, 11, 2048, 128⟩) := by
    simp only [handshakeRun]
    rw [h1]
    dsimp only [List.headD]
    rw [h2]
    dsimp only [List.headD]
    rw [h3]
    dsimp only [List.headD]
    rw [h4]
    dsimp only [List.headD]
    rw [h5]
  rw [hrun]
  exact ⟨rfl, rfl, rfl, rfl⟩

/-- C5, counterexample: a malformed PG frame (`"PG:abc,def"`, both
fields non-numeric) delivered to a Responder engine in IDLE is not
dropped: the fields parse as 0, the engine replies ACK and its state
changes from IDLE to RECEIVED_ACK. -/
theorem c5_counterexample :
    (processMessage (dhFresh 0 0 0 0 0 0)
        ['P', 'G', ':', 'a', 'b', 'c', ',', 'd', 'e', 'f'] false 0).1.state
      = DHProtoState.RECEIVED_ACK ∧
    (dhFresh 0 0 0 0 0 0).state = DHProtoState.IDLE ∧
    DHProtoState.RECEIVED_ACK ≠ DHProtoState.IDLE ∧
    (processMessage (dhFresh 0 0 0 0 0 0)
        ['P', 'G', ':', 'a', 'b', 'c', ',', 'd', 'e', 'f'] false 0).2 = [ackTag] :=
  ⟨rfl, rfl, by decide, rfl⟩

/-- C5 (amended): malformed numeric fields in a control frame are not
detected.  A control frame whose role/state guard fails is dropped with
no state change and nothing sent; but when the guard matches, `toInt`
parses the malformed fields as 0 and the transition is taken anyway: a
guard-matching PG frame with non-numeric fields stores p = 0, g = 0,
replies ACK and advances the state, and a guard-matching AKEY frame with
a non-numeric public value even completes the handshake, producing a
shared secret (derived from remote public value 0).  In all cases no
error is surfaced upstream. -/
theorem c5_amended :
    (∀ (st : DHState) (rest : List Char) (rnd : Int), st.state ≠ DHProtoState.IDLE →
      processMessage st (pgTag ++ rest) false rnd = (st, [])) ∧
    (∀ (sk p g pk pub rpub rnd : Int),
      processMessage (⟨DHProtoState.IDLE, false, sk, p, g, pk, pub, rpub⟩ : DHState)
          ['P', 'G', ':', 'a', 'b', 'c', ',', 'd', 'e', 'f'] false rnd
        = (⟨DHProtoState.RECEIVED_ACK, false, sk, 0, 0, pk, pub, rpub⟩, [ackTag])) ∧
    (∀ (sk p g pk pub rpub rnd : Int),
      (processMessage (⟨DHProtoState.RECEIVED_ACK, false, sk, p, g, pk, pub, rpub⟩ : DHState)
          ['A', 'K', 'E', 'Y', ':', 'x', 'y', 'z'] false rnd).1.sharedKeyAvailable = true) := by
  refine ⟨?_, ?_, ?_⟩
  · intro st rest rnd hne
    show (if startsWith pgTag (pgTag ++ rest) = true then _ else _) = (st, [])
    rw [if_pos]
    · rw [if_neg]
      intro hand
      exact hne hand.2
    · rfl
  · intro sk p g pk pub rpub rnd
    rfl
  · intro sk p g pk pub rpub rnd
    rfl

/-- C6: role guard.  Delivering a Responder-only frame (ACK or BKEY) to
an engine running as Responder (`isAlice = false`), or an
Initiator-only frame (PG or AKEY) to an engine running as Initiator
(`isAlice = true`), returns the state completely unchanged (handshake
state, DH parameters and shared-key availability included) and sends
nothing, whatever the current state. -/
theorem c6_role_guard (st : DHState) (rest : List Char) (rnd : Int) :
    processMessage st (ackTag ++ rest) false rnd = (st, []) ∧
    processMessage st (bkeyTag ++ rest) false rnd = (st, []) ∧
    processMessage st (pgTag ++ rest) true rnd = (st, []) ∧
    processMessage st (akeyTag ++ rest) true rnd = (st, []) :=
  ⟨rfl, rfl, rfl, rfl⟩

/-- C7: from any state in which the handshake has completed
(`isSharedKeyAvailable()` is true), `reset()` makes the availability
flag false, makes the spec-level shared secret empty, and returns the
handshake state to IDLE. -/
theorem c7_reset (st : DHState) (h : isSharedKeyAvailable st = true) :
    isSharedKeyAvailable (reset st) = false ∧
    sharedSecret (reset st) = none ∧
    (reset st).state = DHProtoState.IDLE :=
  ⟨rfl, rfl, rfl⟩

/-- C7 witness: resetting a concrete completed engine. -/
theorem c7_witness :
    isSharedKeyAvailable
        (reset (⟨DHProtoState.RECEIVED_B_PREKEY, true, 2038, 2089, 2, 7, 128, 2048⟩ : DHState))
      = false ∧
    sharedSecret
        (reset (⟨DHProtoState.RECEIVED_B_PREKEY, true, 2038, 2089, 2, 7, 128, 2048⟩ : DHState))
      = none ∧
    (reset (⟨DHProtoState.RECEIVED_B_PREKEY, true, 2038, 2089, 2, 7, 128, 2048⟩ : DHState)).state
      = DHProtoState.IDLE :=
  c7_reset (⟨DHProtoState.RECEIVED_B_PREKEY, true, 2038, 2089, 2, 7, 128, 2048⟩ : DHState) rfl

/-- C5 witness for the amended theorem: a malformed PG frame delivered
to a Responder whose guard fails (state SENT_PG, not IDLE) is dropped
unchanged. -/
theorem c5_witness :
    processMessage (⟨DHProtoState.SENT_PG, false, 0, 0, 0, 0, 0, 0⟩ : DHState)
        (pgTag ++ ['x']) false 0
      = ((⟨DHProtoState.SENT_PG, false, 0, 0, 0, 0, 0, 0⟩ : DHState), []) :=
  c5_amended.1 (⟨DHProtoState.SENT_PG, false, 0, 0, 0, 0, 0, 0⟩ : DHState) ['x'] 0 (by decide)

/-- C8: in Secured mode (LEVEL1), a received line that is a payload
frame (no PG:/ACK/AKEY:/BKEY: leader) arriving while the shared key is
not available leaves the engine untouched, sends nothing, and displays
exactly the KeyUnavailable message "Shared key not available" — no
decoded output, and the payload never reaches `decryptMessage`. -/
theorem c8_key_unavailable (dh : DHState) (line : List Char) (isAlice : Bool) (rnd : Int)
    (hkey : dh.sharedKeyAvailable = false)
    (h1 : startsWith pgTag line = false) (h2 : startsWith ackTag line = false)
    (h3 : startsWith akeyTag line = false) (h4 : startsWith bkeyTag line = false) :
    onReceive dh line isAlice SecurityLevel.LEVEL1 rnd = (dh, [], [keyUnavailableMsg]) := by
  simp [onReceive, h1, h2, h3, h4, hkey]

/-- C8 witness: a fresh engine receiving the payload line "hi" in
LEVEL1. -/
theorem c8_witness :
    onReceive (dhFresh 0 0 0 0 0 0) ['h', 'i'] true SecurityLevel.LEVEL1 0
      = (dhFresh 0 0 0 0 0 0, [], [keyUnavailableMsg]) :=
  c8_key_unavailable (dhFresh 0 0 0 0 0 0) ['h', 'i'] true 0 rfl rfl rfl rfl rfl

/-- C9: toggling the security level (from any level, any handshake
state including a completed one) resets the engine to IDLE, discards
the shared secret (and with it the derived cipher key), and rebuilds
both peer agents with their constructor state: sequence number 1,
test-message flag false, DH-initiated flag false, send timer 0. -/
theorem c9_level_toggle (s : SystemState) :
    (levelToggle s).dh.state = DHProtoState.IDLE ∧
    isSharedKeyAvailable (levelToggle s).dh = false ∧
    sharedSecret (levelToggle s).dh = none ∧
    (levelToggle s).alice.sequenceNumber = 1 ∧
    (levelToggle s).alice.lastSendTime = 0 ∧
    (levelToggle s).alice.testMessagesSent = false ∧
    (levelToggle s).alice.dhInitiated = false ∧
    (levelToggle s).bob.sequenceNumber = 1 ∧
    (levelToggle s).bob.lastSendTime = 0 ∧
    (levelToggle s).bob.testMessagesSent = false ∧
    (levelToggle s).bob.dhInitiated = false :=
  ⟨rfl, rfl, rfl, rfl, rfl, rfl, rfl, rfl, rfl, rfl, rfl⟩

theorem i8ofNat_bounds (n : Nat) : -128 ≤ i8ofNat n ∧ i8ofNat n < 128 := by
  unfold i8ofNat
  split <;> omega

theorem i8ofNat_emod_toNat {x : Nat} (h : x < 256) : (i8ofNat x % 256).toNat = x := by
  unfold i8ofNat
  split <;> omega

theorem i8ofNat_eq_self {c : Int} (h1 : -128 ≤ c) (h2 : c < 128) :
    i8ofNat (c % 256).toNat = c := by
  unfold i8ofNat
  split <;> omega

theorem xor_lt_256 {a b : Nat} (ha : a < 256) (hb : b < 256) : a ^^^ b < 256 := by
  have h : a ^^^ b < 2 ^ 8 :=
    Nat.xor_lt_two_pow (by norm_num at ha ⊢; exact ha) (by norm_num at hb ⊢; exact hb)
  norm_num at h
  exact h

theorem charXor_bounds (c k : Int) : -128 ≤ charXor c k ∧ charXor c k < 128 :=
  i8ofNat_bounds _

theorem charXor_charXor (c k : Int) (h1 : -128 ≤ c) (h2 : c < 128) :
    charXor (charXor c k) k = c := by
  have ha : (c % 256).toNat < 256 := by omega
  have hb : (k % 256).toNat < 256 := by omega
  have hx : ((c % 256).toNat ^^^ (k % 256).toNat) < 256 := xor_lt_256 ha hb
  show i8ofNat ((charXor c k % 256).toNat ^^^ (k % 256).toNat) = c
  rw [show (charXor c k % 256).toNat = (c % 256).toNat ^^^ (k % 256).toNat from
    i8ofNat_emod_toNat hx]
  rw [Nat.xor_cancel_right]
  exact i8ofNat_eq_self h1 h2

set_option maxRecDepth 10000 in
theorem tokenRoundTripAux :
    ∀ n, n < 256 → atoi (intToChars (i8ofNat n)) = i8ofNat n ∧ ' ' ∉ intToChars (i8ofNat n) := by
  decide

theorem tokenRoundTrip {v : Int} (h1 : -128 ≤ v) (h2 : v < 128) :
    atoi (intToChars v) = v ∧ ' ' ∉ intToChars v := by
  have hv : i8ofNat (v % 256).toNat = v := i8ofNat_eq_self h1 h2
  have hlt : (v % 256).toNat < 256 := by omega
  have h := tokenRoundTripAux (v % 256).toNat hlt
  rw [hv] at h
  exact h

theorem indexOfChar_none_iff (c : Char) (s : List Char) :
    indexOfChar c s = none ↔ c ∉ s := by
  induction s with
  | nil => simp [indexOfChar]
  | cons d s ih =>
    by_cases hd : d = c
    · subst hd
      simp [indexOfChar]
    · simp [indexOfChar, hd, ih]
      intro h
      exact fun he => hd he.symm

theorem indexOfChar_append_notMem (c : Char) (tok rest : List Char) (h : c ∉ tok) :
    indexOfChar c (tok ++ c :: rest) = some tok.length := by
  induction tok with
  | nil => simp [indexOfChar]
  | cons d tok ih =>
    have hd : d ≠ c := fun he => h (he ▸ List.mem_cons_self d tok)
    have htl : c ∉ tok := fun hm => h (List.mem_cons_of_mem d hm)
    simp [indexOfChar, hd, ih htl]

theorem indexOfChar_some_lt {c : Char} {s : List Char} {i : Nat}
    (h : indexOfChar c s = some i) : i < s.length := by
  induction s generalizing i with
  | nil => simp [indexOfChar] at h
  | cons d s ih =>
    by_cases hd : d = c
    · subst hd
      simp [indexOfChar] at h
      simp only [List.length_cons]
      omega
    · simp [indexOfChar, hd] at h
      obtain ⟨j, hj, hji⟩ := h
      have := ih hj
      simp only [List.length_cons]
      omega

theorem indexOfChar_append_some {c : Char} {s : List Char} {i : Nat} (t : List Char)
    (h : indexOfChar c s = some i) : indexOfChar c (s ++ t) = some i := by
  induction s generalizing i with
  | nil => simp [indexOfChar] at h
  | cons d s ih =>
    by_cases hd : d = c
    · subst hd
      simp [indexOfChar] at h ⊢
      exact h
    · simp [indexOfChar, hd] at h ⊢
      obtain ⟨j, hj, hji⟩ := h
      exact ⟨j, ih hj, hji⟩

theorem decryptLoop_fuel (key : Int) :
    ∀ (f1 f2 : Nat) (s : List Char), s.length < f1 → s.length < f2 →
      decryptLoop key f1 s = decryptLoop key f2 s := by
  intro f1
  induction f1 with
  | zero =>
    intro f2 s h1 h2
    omega
  | succ k ih =>
    intro f2 s h1 h2
    cases f2 with
    | zero => omega
    | succ g =>
      cases hidx : indexOfChar ' ' s with
      | none => simp [decryptLoop, hidx]
      | some i =>
        have hil : i < s.length := indexOfChar_some_lt hidx
        have hdrop : (s.drop (i + 1)).length < k := by
          simp only [List.length_drop]
          omega
        have hdrop2 : (s.drop (i + 1)).length < g := by
          simp only [List.length_drop]
          omega
        simp only [decryptLoop, hidx]
        rw [ih g (s.drop (i + 1)) hdrop hdrop2]

theorem decryptLoop_append (key : Int) :
    ∀ (fuel : Nat) (s t : List Char), s.length < fuel → ' ' ∉ t →
      decryptLoop key fuel (s ++ t) = decryptLoop key fuel s := by
  intro fuel
  induction fuel with
  | zero =>
    intro s t h1 ht
    omega
  | succ k ih =>
    intro s t h1 ht
    cases hidx : indexOfChar ' ' s with
    | none =>
      have hs : ' ' ∉ s := (indexOfChar_none_iff ' ' s).mp hidx
      have hst : ' ' ∉ s ++ t := by
        intro hm
        rcases List.mem_append.mp hm with hm1 | hm1
        · exact hs hm1
        · exact ht hm1
      have hidx2 : indexOfChar ' ' (s ++ t) = none := (indexOfChar_none_iff ' ' _).mpr hst
      simp [decryptLoop, hidx, hidx2]
    | some i =>
      have hil : i < s.length := indexOfChar_some_lt hidx
      have hidx2 : indexOfChar ' ' (s ++ t) = some i := indexOfChar_append_some t hidx
      have htake : (s ++ t).take i = s.take i := List.take_append_of_le_length (by omega)
      have hdrop : (s ++ t).drop (i + 1) = s.drop (i + 1) ++ t :=
        List.drop_append_of_le_length (by omega)
      have hlen : (s.drop (i + 1)).length < k := by
        simp only [List.length_drop]
        omega
      simp only [decryptLoop, hidx, hidx2, htake, hdrop]
      rw [ih (s.drop (i + 1)) t hlen ht]

theorem decryptLoop_encTokens (key : Int) :
    ∀ (S : List Int) (fuel : Nat), (∀ c ∈ S, -128 ≤ c ∧ c < 128) →
      (encTokens key S).length < fuel →
      decryptLoop key fuel (encTokens key S) = S := by
  intro S
  induction S with
  | nil =>
    intro fuel hS hf
    cases fuel with
    | zero => omega
    | succ k => simp [encTokens, decryptLoop, indexOfChar]
  | cons c rest ih =>
    intro fuel hS hf
    have hc : -128 ≤ c ∧ c < 128 := hS c (List.mem_cons_self c rest)
    have hcx : -128 ≤ charXor c key ∧ charXor c key < 128 := charXor_bounds c key
    have htok := tokenRoundTrip hcx.1 hcx.2
    cases fuel with
    | zero => omega
    | succ k =>
      rw [show encTokens key (c :: rest)
          = intToChars (charXor c key) ++ ' ' :: encTokens key rest from rfl] at hf ⊢
      have hidx : indexOfChar ' ' (intToChars (charXor c key) ++ ' ' :: encTokens key rest)
          = some (intToChars (charXor c key)).length :=
        indexOfChar_append_notMem ' ' _ _ htok.2
      have htake : (intToChars (charXor c key) ++ ' ' :: encTokens key rest).take
          (intToChars (charXor c key)).length = intToChars (charXor c key) :=
        List.take_left _ _
      have hdrop : (intToChars (charXor c key) ++ ' ' :: encTokens key rest).drop
          ((intToChars (charXor c key)).length + 1) = encTokens key rest := by
        rw [show intToChars (charXor c key) ++ ' ' :: encTokens key rest
            = (intToChars (charXor c key) ++ [' ']) ++ encTokens key rest by simp]
        rw [show (intToChars (charXor c key)).length + 1
            = (intToChars (charXor c key) ++ [' ']).length by simp]
        exact List.drop_left _ _
      have hlen : (encTokens key rest).length < k := by
        simp only [List.length_append, List.length_cons] at hf
        omega
      simp only [decryptLoop, hidx, htake, hdrop]
      rw [htok.1, charXor_charXor c key hc.1 hc.2]
      rw [ih k (fun x hx => hS x (List.mem_cons_of_mem c hx)) hlen]

/-- C2: the cipher is an involution.  For every plaintext byte sequence
(char values in the signed 8-bit range, the empty sequence included)
and every byte key k in [0, 255] (0 and 255 included), decrypting the
encryption under the same key returns exactly the original sequence. -/
theorem c2_involution (S : List Int) (hS : ∀ c ∈ S, -128 ≤ c ∧ c < 128)
    (k : Int) (hk1 : 0 ≤ k) (hk2 : k ≤ 255) :
    decryptMessage k (encryptMessage k S) = S := by
  unfold decryptMessage encryptMessage
  exact decryptLoop_encTokens (Int.tmod k 256) S _ hS (Nat.lt_succ_self _)

/-- C2 witness: the bytes of "Hey" under key 255 (and the key-0 case is
exercised by the general theorem as well). -/
theorem c2_witness :
    decryptMessage 255 (encryptMessage 255 [72, 101, 121]) = [72, 101, 121] :=
  c2_involution [72, 101, 121] (by decide) 255 (by decide) (by decide)

/-- C10 (implicit behaviour of the token scanner): `decryptMessage` only
consumes tokens that are followed by a space, so appending any
space-free tail (in particular a final token with no trailing space)
never changes the result; concretely, decoding "72 101 121" drops the
last token and yields only the two bytes 72, 101; and the round trip
works because `encryptMessage` puts a space after every token, so for
every nonempty plaintext the ciphertext ends in a space. -/
theorem c10_trailing_token :
    (∀ (sk : Int) (s t : List Char), ' ' ∉ t →
      decryptMessage sk (s ++ t) = decryptMessage sk s) ∧
    decryptMessage 0 ['7', '2', ' ', '1', '0', '1', ' ', '1', '2', '1'] = [72, 101] ∧
    (∀ (sk : Int) (S : List Int), S ≠ [] →
      (encryptMessage sk S).getLast? = some ' ') := by
  refine ⟨?_, by decide, ?_⟩
  · intro sk s t ht
    unfold decryptMessage
    rw [decryptLoop_append (Int.tmod sk 256) ((s ++ t).length + 1) s t
      (by simp only [List.length_append]; omega) ht]
    exact decryptLoop_fuel (Int.tmod sk 256) ((s ++ t).length + 1) (s.length + 1) s
      (by simp only [List.length_append]; omega) (Nat.lt_succ_self _)
  · intro sk S
    unfold encryptMessage
    induction S with
    | nil => intro h; exact absurd rfl h
    | cons c rest ih =>
      intro h
      rw [show encTokens (Int.tmod sk 256) (c :: rest)
          = intToChars (charXor c (Int.tmod sk 256)) ++ ' ' :: encTokens (Int.tmod sk 256) rest
          from rfl]
      rw [List.getLast?_append_of_ne_nil _ (List.cons_ne_nil ' ' _)]
      by_cases hE : encTokens (Int.tmod sk 256) rest = []
      · rw [hE]
        rfl
      · rw [show (' ' :: encTokens (Int.tmod sk 256) rest : List Char)
            = [' '] ++ encTokens (Int.tmod sk 256) rest from rfl]
        rw [List.getLast?_append_of_ne_nil _ hE]
        apply ih
        intro hrest
        apply hE
        rw [hrest]
        rfl

/-- C10 witness: appending the space-free tail "101" to "72 " does not
change the decoded bytes, and a one-byte encryption ends in a space. -/
theorem c10_witness :
    decryptMessage 0 (['7', '2', ' '] ++ ['1', '0', '1']) = decryptMessage 0 ['7', '2', ' '] ∧
    (encryptMessage 0 [72]).getLast? = some ' ' :=
  ⟨c10_trailing_token.1 0 ['7', '2', ' '] ['1', '0', '1'] (by decide),
   c10_trailing_token.2.2 0 [72] (by decide)⟩
